import Mathlib

/-!
A shallow embedding of `docker_query.py`: the version classification,
parsing, comparison and selection engine for Docker image tags.

The Python module relies on `packaging.version.Version` (an external
library implementing PEP 440 version parsing and ordering) and on
Python's built-in tuple comparison and stable sort.  Those library
semantics are embedded here explicitly:

* `Packaging.version?` models `packaging.version.Version(s)` — the PEP 440
  grammar (optional `v`, epoch, dotted release, pre/post/dev segments,
  local segment), applied after lower-casing and stripping surrounding
  ASCII whitespace, returning `none` where the Python constructor raises
  `InvalidVersion`.  Case mapping and the digit classes are modelled for
  the ASCII range, which is the range the tag grammars themselves use
  (Python's `\d`/`str.lower` are unicode-aware, `[a-z]`/`[0-9]` are not).
* `Packaging.cmpkey` models `packaging.version._cmpkey`, the tuple that
  `Version.__lt__`/`__eq__` compare, with Python's `-Infinity`/`Infinity`
  sentinels encoded as `Option` layers ordered by `botCmp`/`topCmp`.
* Python tuple/sequence comparison is modelled by the `Ordering`-valued
  comparators `pairLex`/`listLex`, and `sorted(..., key=DockerVersion)`
  (a stable ascending sort) by `List.insertionSort` with the key-based
  relation `tagLeR`.
-/

/-! ### Characters and digit runs -/

/-- Two characters with the same code point are equal. -/
theorem charEq_of_toNat {a b : Char} (h : a.toNat = b.toNat) : a = b :=
  Char.ext (UInt32.ext h)

/-- Evaluating `Char.ofNat` on a valid (small) code point. -/
theorem charOfNat_toNat (n : Nat) (h : n < 0xd800) : (Char.ofNat n).toNat = n := by
  unfold Char.ofNat
  rw [dif_pos (Or.inl h)]
  rfl

/-- ASCII lower-casing of one character: models what Python's `str.lower()`
does on the ASCII range (`A`-`Z` map to `a`-`z`, everything else in that
range is fixed). -/
def lowerChar (c : Char) : Char :=
  if 65 ≤ c.toNat ∧ c.toNat ≤ 90 then Char.ofNat (c.toNat + 32) else c

theorem lowerChar_toNat (c : Char) :
    (lowerChar c).toNat = if 65 ≤ c.toNat ∧ c.toNat ≤ 90 then c.toNat + 32 else c.toNat := by
  unfold lowerChar
  split
  · rw [charOfNat_toNat _ (by omega)]
  · rfl

theorem lowerChar_idem (c : Char) : lowerChar (lowerChar c) = lowerChar c := by
  apply charEq_of_toNat
  rw [lowerChar_toNat (lowerChar c), lowerChar_toNat c]
  split_ifs <;> omega

/-- The numeric value of a digit character. -/
def digitVal (c : Char) : Nat := c.toNat - 48

/-- `int` applied to a run of decimal digit characters. -/
def digitsToNat (ds : List Char) : Nat := ds.foldl (fun a c => 10 * a + digitVal c) 0

/-! ### Ordering-valued comparators (Python's `<`/`==` on tuples and sequences) -/

theorem ordThenLt (o : Ordering) : Ordering.lt.then o = .lt := rfl

theorem ordThenGt (o : Ordering) : Ordering.gt.then o = .gt := rfl

theorem ordThenEq (o : Ordering) : Ordering.eq.then o = o := rfl

theorem ordSwapLt : Ordering.lt.swap = .gt := rfl

theorem ordSwapGt : Ordering.gt.swap = .lt := rfl

theorem ordSwapEq : Ordering.eq.swap = .eq := rfl

theorem ordering_then_eq_iff {o p : Ordering} : o.then p = .eq ↔ o = .eq ∧ p = .eq := by
  cases o <;> simp [Ordering.then]

/-- Three-way comparison of naturals. -/
def cmpN (a b : Nat) : Ordering := if a < b then .lt else if a = b then .eq else .gt

/-- Three-way comparison of characters by code point (Python compares
strings pointwise by code point). -/
def cmpChar (a b : Char) : Ordering := cmpN a.toNat b.toNat

/-- Lexicographic comparison of two pairs, first component first:
Python's tuple comparison for pairs. -/
def pairLex (c : α → α → Ordering) (d : β → β → Ordering) (p q : α × β) : Ordering :=
  (c p.1 q.1).then (d p.2 q.2)

/-- Lexicographic comparison of two sequences; a strict prefix is smaller:
Python's comparison of tuples/lists of unequal length. -/
def listLex (c : α → α → Ordering) : List α → List α → Ordering
  | [], [] => .eq
  | [], _ :: _ => .lt
  | _ :: _, [] => .gt
  | a :: as, b :: bs => (c a b).then (listLex c as bs)

/-- Comparison on `Option` where `none` is a bottom element: Python's
`NegativeInfinity` sentinel. -/
def botCmp (c : α → α → Ordering) : Option α → Option α → Ordering
  | none, none => .eq
  | none, some _ => .lt
  | some _, none => .gt
  | some a, some b => c a b

/-- Comparison on `Option` where `none` is a top element: Python's
`Infinity` sentinel. -/
def topCmp (c : α → α → Ordering) : Option α → Option α → Ordering
  | none, none => .eq
  | none, some _ => .gt
  | some _, none => .lt
  | some a, some b => c a b

/-- Three-way comparison of strings (pointwise by code point, shorter
prefix smaller), as Python compares `str` values. -/
def cmpStr (s t : String) : Ordering := listLex cmpChar s.data t.data

/-- `c` is a linear (total, transitive, substitutive) three-way comparator. -/
structure LinCmp (c : α → α → Ordering) : Prop where
  refl : ∀ a, c a a = .eq
  symm : ∀ a b, c b a = (c a b).swap
  lt_trans : ∀ {a b d}, c a b = .lt → c b d = .lt → c a d = .lt
  eq_left : ∀ {a b} (d : α), c a b = .eq → c a d = c b d

namespace LinCmp

variable {c : α → α → Ordering}

theorem eq_right (h : LinCmp c) {a b : α} (d : α) (hab : c a b = .eq) :
    c d a = c d b := by
  rw [h.symm a d, h.symm b d, h.eq_left d hab]

theorem gt_iff (h : LinCmp c) {a b : α} : c a b = .gt ↔ c b a = .lt := by
  rw [h.symm b a]
  cases c b a <;> simp [ordSwapLt, ordSwapGt, ordSwapEq]

theorem eq_comm (h : LinCmp c) {a b : α} : c a b = .eq ↔ c b a = .eq := by
  rw [h.symm b a]
  cases c b a <;> simp [ordSwapLt, ordSwapGt, ordSwapEq]

/-- Transitivity of the reflexive relation `c a b ≠ .gt`. -/
theorem le_trans (h : LinCmp c) {a b d : α} (h1 : c a b ≠ .gt) (h2 : c b d ≠ .gt) :
    c a d ≠ .gt := by
  intro hg
  cases hab : c a b with
  | gt => exact h1 hab
  | eq =>
    rw [h.eq_left d hab] at hg
    exact h2 hg
  | lt =>
    cases hbd : c b d with
    | gt => exact h2 hbd
    | eq =>
      rw [← h.eq_right a hbd, hab] at hg
      cases hg
    | lt =>
      rw [h.lt_trans hab hbd] at hg
      cases hg

theorem total (h : LinCmp c) (a b : α) : c a b ≠ .gt ∨ c b a ≠ .gt := by
  cases hab : c a b with
  | lt => exact Or.inl (by simp)
  | eq => exact Or.inl (by simp)
  | gt => exact Or.inr (by rw [h.gt_iff.mp hab]; simp)

/-- Transport a linear comparator along any key function. -/
theorem comap (h : LinCmp c) (f : β → α) : LinCmp (fun x y => c (f x) (f y)) where
  refl a := h.refl (f a)
  symm a b := h.symm (f a) (f b)
  lt_trans h1 h2 := h.lt_trans h1 h2
  eq_left d h1 := h.eq_left (f d) h1

end LinCmp

/-- `c` decides equality: comparing equal means being equal. -/
def CmpLawEq (c : α → α → Ordering) : Prop := ∀ a b, c a b = .eq ↔ a = b

theorem cmpN_eq_iff {a b : Nat} : cmpN a b = .eq ↔ a = b := by
  unfold cmpN
  split_ifs with h1 h2
  · simp
    omega
  · simp [h2]
  · simp
    omega

theorem cmpN_lt_iff {a b : Nat} : cmpN a b = .lt ↔ a < b := by
  unfold cmpN
  split_ifs with h1 h2 <;> simp_all

theorem linCmp_cmpN : LinCmp cmpN where
  refl a := by simp [cmpN]
  symm a b := by
    unfold cmpN
    rcases Nat.lt_trichotomy a b with h | h | h
    · rw [if_neg (by omega), if_neg (by omega), if_pos h]
      rfl
    · subst h
      rw [if_neg (by omega), if_pos rfl]
      rfl
    · rw [if_pos h, if_neg (by omega), if_neg (by omega)]
      rfl
  lt_trans := by
    intro a b d h1 h2
    rw [cmpN_lt_iff] at *
    omega
  eq_left := by
    intro a b d h1
    rw [cmpN_eq_iff.mp h1]

theorem cmpLawEq_cmpN : CmpLawEq cmpN := fun _ _ => cmpN_eq_iff

theorem linCmp_cmpChar : LinCmp cmpChar := linCmp_cmpN.comap Char.toNat

theorem cmpLawEq_cmpChar : CmpLawEq cmpChar := by
  intro a b
  constructor
  · intro h
    exact charEq_of_toNat ((cmpLawEq_cmpN a.toNat b.toNat).mp h)
  · intro h
    rw [h]
    exact linCmp_cmpChar.refl b

theorem linCmp_pairLex {c : α → α → Ordering} {d : β → β → Ordering}
    (hc : LinCmp c) (hd : LinCmp d) : LinCmp (pairLex c d) := by
  refine ⟨?_, ?_, ?_, ?_⟩
  · intro p
    simp [pairLex, hc.refl, hd.refl, ordThenEq]
  · intro p q
    simp only [pairLex]
    rw [hc.symm p.1 q.1, hd.symm p.2 q.2]
    cases c p.1 q.1 <;> simp [ordThenLt, ordThenGt, ordThenEq, ordSwapLt, ordSwapGt, ordSwapEq]
  · intro p q r h1 h2
    simp only [pairLex] at *
    cases h3 : c p.1 q.1 <;> rw [h3] at h1
    case eq =>
      rw [ordThenEq] at h1
      cases h4 : c q.1 r.1 <;> rw [h4] at h2
      case eq =>
        rw [ordThenEq] at h2
        rw [hc.eq_left r.1 h3, h4, ordThenEq]
        exact hd.lt_trans h1 h2
      case lt =>
        rw [hc.eq_left r.1 h3, h4, ordThenLt]
      case gt =>
        rw [ordThenGt] at h2
        cases h2
    case lt =>
      cases h4 : c q.1 r.1 <;> rw [h4] at h2
      case eq =>
        rw [← hc.eq_right p.1 h4, h3, ordThenLt]
      case lt =>
        rw [hc.lt_trans h3 h4, ordThenLt]
      case gt =>
        rw [ordThenGt] at h2
        cases h2
    case gt =>
      rw [ordThenGt] at h1
      cases h1
  · intro p q r h1
    simp only [pairLex] at *
    rcases ordering_then_eq_iff.mp h1 with ⟨h2, h3⟩
    rw [hc.eq_left r.1 h2, hd.eq_left r.2 h3]

theorem cmpLawEq_pairLex {c : α → α → Ordering} {d : β → β → Ordering}
    (hc : CmpLawEq c) (hd : CmpLawEq d) : CmpLawEq (pairLex c d) := by
  intro p q
  simp only [pairLex, ordering_then_eq_iff, hc p.1 q.1, hd p.2 q.2]
  constructor
  · intro h
    exact Prod.ext h.1 h.2
  · intro h
    rw [h]
    exact ⟨rfl, rfl⟩

theorem linCmp_listLex {c : α → α → Ordering} (hc : LinCmp c) : LinCmp (listLex c) := by
  refine ⟨?_, ?_, ?_, ?_⟩
  · intro l
    induction l with
    | nil => rfl
    | cons a t ih => simp [listLex, hc.refl, ordThenEq, ih]
  · intro l1 l2
    induction l1 generalizing l2 with
    | nil => cases l2 <;> rfl
    | cons a t ih =>
      cases l2 with
      | nil => rfl
      | cons b s =>
        simp only [listLex]
        rw [hc.symm a b, ih s]
        cases c a b <;>
          simp [ordThenLt, ordThenGt, ordThenEq, ordSwapLt, ordSwapGt, ordSwapEq]
  · intro l1 l2 l3 h1 h2
    induction l1 generalizing l2 l3 with
    | nil =>
      cases l2 with
      | nil => exact h2
      | cons b s =>
        cases l3 with
        | nil => simp [listLex] at h2
        | cons e u => rfl
    | cons a t ih =>
      cases l2 with
      | nil => simp [listLex] at h1
      | cons b s =>
        cases l3 with
        | nil => simp [listLex] at h2
        | cons e u =>
          simp only [listLex] at *
          cases h3 : c a b <;> rw [h3] at h1
          case eq =>
            rw [ordThenEq] at h1
            cases h4 : c b e <;> rw [h4] at h2
            case eq =>
              rw [ordThenEq] at h2
              rw [hc.eq_left e h3, h4, ordThenEq]
              exact ih h1 h2
            case lt =>
              rw [hc.eq_left e h3, h4, ordThenLt]
            case gt =>
              rw [ordThenGt] at h2
              cases h2
          case lt =>
            cases h4 : c b e <;> rw [h4] at h2
            case eq =>
              rw [← hc.eq_right a h4, h3, ordThenLt]
            case lt =>
              rw [hc.lt_trans h3 h4, ordThenLt]
            case gt =>
              rw [ordThenGt] at h2
              cases h2
          case gt =>
            rw [ordThenGt] at h1
            cases h1
  · intro l1 l2 l3 h1
    induction l1 generalizing l2 l3 with
    | nil =>
      cases l2 with
      | nil => rfl
      | cons b s => simp [listLex] at h1
    | cons a t ih =>
      cases l2 with
      | nil => simp [listLex] at h1
      | cons b s =>
        simp only [listLex] at h1
        rcases ordering_then_eq_iff.mp h1 with ⟨h2, h3⟩
        cases l3 with
        | nil => rfl
        | cons e u =>
          simp only [listLex]
          rw [hc.eq_left e h2, ih u h3]

theorem cmpLawEq_listLex {c : α → α → Ordering} (hc : CmpLawEq c) : CmpLawEq (listLex c) := by
  intro l1 l2
  induction l1 generalizing l2 with
  | nil => cases l2 <;> simp [listLex]
  | cons a t ih =>
    cases l2 with
    | nil => simp [listLex]
    | cons b s =>
      simp only [listLex, ordering_then_eq_iff, hc a b, ih s]
      constructor
      · intro h
        rw [h.1, h.2]
      · intro h
        injection h with h1 h2
        exact ⟨h1, h2⟩

theorem linCmp_botCmp {c : α → α → Ordering} (hc : LinCmp c) : LinCmp (botCmp c) := by
  refine ⟨?_, ?_, ?_, ?_⟩
  · intro a
    cases a <;> simp [botCmp, hc.refl]
  · intro a b
    cases a <;> cases b
    · rfl
    · rfl
    · rfl
    · exact hc.symm _ _
  · intro a b d h1 h2
    cases a <;> cases b <;> cases d <;> simp_all [botCmp]
    exact hc.lt_trans h1 h2
  · intro a b d h1
    cases a <;> cases b <;> cases d <;> simp_all [botCmp]
    exact hc.eq_left _ h1

theorem cmpLawEq_botCmp {c : α → α → Ordering} (hc : CmpLawEq c) : CmpLawEq (botCmp c) := by
  intro a b
  cases a <;> cases b
  · simp [botCmp]
  · simp [botCmp]
  · simp [botCmp]
  · simp only [botCmp, Option.some.injEq]
    exact hc _ _

theorem linCmp_topCmp {c : α → α → Ordering} (hc : LinCmp c) : LinCmp (topCmp c) := by
  refine ⟨?_, ?_, ?_, ?_⟩
  · intro a
    cases a <;> simp [topCmp, hc.refl]
  · intro a b
    cases a <;> cases b
    · rfl
    · rfl
    · rfl
    · exact hc.symm _ _
  · intro a b d h1 h2
    cases a <;> cases b <;> cases d <;> simp_all [topCmp]
    exact hc.lt_trans h1 h2
  · intro a b d h1
    cases a <;> cases b <;> cases d <;> simp_all [topCmp]
    exact hc.eq_left _ h1

theorem cmpLawEq_topCmp {c : α → α → Ordering} (hc : CmpLawEq c) : CmpLawEq (topCmp c) := by
  intro a b
  cases a <;> cases b
  · simp [topCmp]
  · simp [topCmp]
  · simp [topCmp]
  · simp only [topCmp, Option.some.injEq]
    exact hc _ _

theorem linCmp_cmpStr : LinCmp cmpStr := (linCmp_listLex linCmp_cmpChar).comap String.data

theorem cmpLawEq_cmpStr : CmpLawEq cmpStr := by
  intro s t
  constructor
  · intro h
    exact String.ext ((cmpLawEq_listLex cmpLawEq_cmpChar s.data t.data).mp h)
  · intro h
    rw [h]
    exact linCmp_cmpStr.refl t

/-! ### The external `packaging.version` library, modelled per PEP 440

`Version(s)` lower-cases `s` (the regex is compiled with `IGNORECASE`),
allows surrounding whitespace, an optional leading `v`, an optional
numeric epoch `N!`, a mandatory dotted numeric release, optional
pre-release / post-release / dev segments with optional `-`/`_`/`.`
separators, and an optional `+local` segment.  Parsing failure raises
`InvalidVersion`, modelled as `none`. -/

/-- Drop a single leading `v`, if present (the optional `v?` of version
grammars). -/
def stripLeadV : List Char → List Char
  | c :: r => if c = 'v' then r else c :: r
  | [] => []

namespace Packaging

/-- The ASCII whitespace characters matched by the `\s*` anchors of the
PEP 440 regex (space, tab, newline, vertical tab, form feed, carriage
return). -/
def isPySpace (c : Char) : Bool :=
  c.toNat = 32 || c.toNat = 9 || c.toNat = 10 || c.toNat = 13 || c.toNat = 11 || c.toNat = 12

/-- Strip surrounding whitespace (the `^\s*` and `\s*$` anchors). -/
def wsStrip (cs : List Char) : List Char :=
  ((cs.dropWhile isPySpace).reverse.dropWhile isPySpace).reverse

/-- The separator class `[-_.]` of the PEP 440 grammar. -/
def isSep (c : Char) : Bool := c = '-' || c = '_' || c = '.'

/-- One segment of a PEP 440 local version: numeric segments are compared
as integers, the rest as strings. -/
inductive LocalSeg
  | num (n : Nat)
  | str (s : String)
deriving DecidableEq

/-- The structured result of `packaging.version.Version`: epoch, release
components, normalized pre-release pair, post-release and dev numbers,
and local segments. -/
structure Version where
  epoch : Nat
  release : List Nat
  pre : Option (String × Nat)
  post : Option Nat
  dev : Option Nat
  localSegs : Option (List LocalSeg)
deriving DecidableEq

/-- Match, longest alternative first, one of the spelled labels at the
head of `cs`; returns its normalized spelling and the rest.  (Python's
regex alternation together with backtracking yields the same label:
whenever a shorter alternative is a prefix of a longer matching one, the
remainder after the shorter one cannot be parsed, so overall matching
always settles on the longest alternative that fits.) -/
def matchLabel (labs : List (String × String)) (cs : List Char) : Option (String × List Char) :=
  labs.findSome? fun lab =>
    if lab.1.data.isPrefixOf cs then some (lab.2, cs.drop lab.1.data.length) else none

/-- The pre-release labels of PEP 440 with their normalized spellings,
longest first. -/
def preLabels : List (String × String) :=
  [("preview", "rc"), ("alpha", "a"), ("beta", "b"), ("pre", "rc"),
   ("rc", "rc"), ("a", "a"), ("b", "b"), ("c", "rc")]

/-- The post-release labels of PEP 440, longest first; all normalize to
`post`. -/
def postLabels : List (String × String) := [("post", "post"), ("rev", "post"), ("r", "post")]

/-- The dev-release label of PEP 440. -/
def devLabels : List (String × String) := [("dev", "dev")]

/-- Parse an optional `[-_.]? label [-_.]? number?` group (shared shape of
the pre, post-by-label and dev groups).  A missing number counts as `0`;
returns the (normalized label, number) pair and the remaining input, or
leaves the input untouched when the group is absent. -/
def tryLabeled (labs : List (String × String)) (cs : List Char) :
    Option (String × Nat) × List Char :=
  let start := match cs with
    | c :: rest => if isSep c then rest else cs
    | [] => []
  match matchLabel labs start with
  | none => (none, cs)
  | some nr =>
    let rest2 := match nr.2 with
      | c :: r => if isSep c then r else nr.2
      | [] => []
    let ds := rest2.takeWhile Char.isDigit
    (some (nr.1, digitsToNat ds), rest2.drop ds.length)

/-- Parse the optional epoch `N!`. -/
def parseEpoch (cs : List Char) : Nat × List Char :=
  let ds := cs.takeWhile Char.isDigit
  if ds.isEmpty then (0, cs)
  else
    match cs.drop ds.length with
    | c :: rest => if c = '!' then (digitsToNat ds, rest) else (0, cs)
    | [] => (0, cs)

/-- Consume the rest of the dotted release run `(\.[0-9]+)*`, the first
component being already accumulated in `cur`.  `acc` holds completed
components in reverse. -/
def releaseLoop : List Char → Nat → List Nat → List Nat × List Char
  | [], cur, acc => ((cur :: acc).reverse, [])
  | c :: rest, cur, acc =>
    if c.isDigit then releaseLoop rest (10 * cur + digitVal c) acc
    else if c = '.' then
      match rest with
      | d :: rest2 =>
        if d.isDigit then releaseLoop rest2 (digitVal d) (cur :: acc)
        else ((cur :: acc).reverse, c :: rest)
      | [] => ((cur :: acc).reverse, [c])
    else ((cur :: acc).reverse, c :: rest)

/-- Parse the mandatory release segment `[0-9]+(\.[0-9]+)*`. -/
def parseRelease (cs : List Char) : Option (List Nat × List Char) :=
  match cs with
  | c :: rest => if c.isDigit then some (releaseLoop rest (digitVal c) []) else none
  | [] => none

/-- Forget the normalized label (always `post`) of a labelled group. -/
def keepNum (pr : Option (String × Nat) × List Char) : Option Nat × List Char :=
  match pr with
  | (some p, r) => (some p.2, r)
  | (none, r) => (none, r)

/-- Parse an optional post-release: either the implicit form `-N` or a
labelled `post`/`rev`/`r` group. -/
def parsePost (cs : List Char) : Option Nat × List Char :=
  match cs with
  | '-' :: rest =>
    let ds := rest.takeWhile Char.isDigit
    if ds.isEmpty then keepNum (tryLabeled postLabels cs)
    else (some (digitsToNat ds), rest.drop ds.length)
  | _ => keepNum (tryLabeled postLabels cs)

/-- Parse an optional dev-release group. -/
def parseDev (cs : List Char) : Option Nat × List Char :=
  keepNum (tryLabeled devLabels cs)

/-- The character class `[a-z0-9]` of local version segments (the input
has already been lower-cased). -/
def isLocalChar (c : Char) : Bool := c.isLower || c.isDigit

/-- Python classifies each local segment by `str.isdigit`. -/
def mkSeg (seg : List Char) : LocalSeg :=
  if seg.all Char.isDigit then .num (digitsToNat seg) else .str (String.mk seg)

/-- Consume local segments `[a-z0-9]+([-_.][a-z0-9]+)*` up to the end of
input; anything else fails.  `cur` holds the current segment in reverse,
`acc` the completed segments in reverse. -/
def localLoop : List Char → List Char → List LocalSeg → Option (List LocalSeg)
  | [], cur, acc => some ((mkSeg cur.reverse :: acc).reverse)
  | c :: rest, cur, acc =>
    if isLocalChar c then localLoop rest (c :: cur) acc
    else if isSep c then
      match rest with
      | d :: rest2 =>
        if isLocalChar d then localLoop rest2 [d] (mkSeg cur.reverse :: acc) else none
      | [] => none
    else none

/-- Parse the local version after the `+`. -/
def parseLocal (cs : List Char) : Option (List LocalSeg) :=
  match cs with
  | c :: rest => if isLocalChar c then localLoop rest [c] [] else none
  | [] => none

/-- Parse a whole (lower-cased, whitespace-stripped) PEP 440 version. -/
def parseCore (cs0 : List Char) : Option Version :=
  let cs1 := stripLeadV cs0
  let ec := parseEpoch cs1
  match parseRelease ec.2 with
  | none => none
  | some rl =>
    let pr := tryLabeled preLabels rl.2
    let po := parsePost pr.2
    let dv := parseDev po.2
    match dv.2 with
    | [] => some ⟨ec.1, rl.1, pr.1, po.1, dv.1, none⟩
    | '+' :: rest => (parseLocal rest).map fun ls => ⟨ec.1, rl.1, pr.1, po.1, dv.1, some ls⟩
    | _ => none

/-- `packaging.version.Version(s)`, as an `Option`: `none` models the
`InvalidVersion` exception. -/
def version? (s : String) : Option Version := parseCore (wsStrip (s.data.map lowerChar))

/-! #### The comparison key (`packaging.version._cmpkey`) -/

/-- Release components with trailing zeros removed, as `_cmpkey` does
(this is what makes `1.2` and `1.2.0` compare equal). -/
def relTrim (l : List Nat) : List Nat := (l.reverse.dropWhile (fun n => n == 0)).reverse

/-- Key of one local segment: integers are `(i, "")`, strings are
`(NegativeInfinity, s)`. -/
def localSegKey : LocalSeg → Option Nat × String
  | .num n => (some n, "")
  | .str s => (none, s)

/-- The comparison key: epoch, trimmed release, then the pre/post/dev/local
fields with Python's `Infinity` (`some none`/`none` under `topCmp`) and
`NegativeInfinity` (`none` under `botCmp`) sentinels. -/
abbrev VKey :=
  Nat × (List Nat × (Option (Option (String × Nat)) ×
    (Option Nat × (Option Nat × Option (List (Option Nat × String))))))

/-- The pre-release key field: a version with a dev segment and no pre and
no post sorts below everything (`NegativeInfinity`, here `none`); a
version without pre-release sorts above all pre-releases (`Infinity`,
here `some none`). -/
def preKey (v : Version) : Option (Option (String × Nat)) :=
  match v.pre, v.post, v.dev with
  | some p, _, _ => some (some p)
  | none, none, some _ => none
  | none, _, _ => some none

def cmpkey (v : Version) : VKey :=
  (v.epoch, (relTrim v.release, (preKey v,
    (v.post, (v.dev, v.localSegs.map (fun l => l.map localSegKey))))))

/-- Comparison of two keys, mirroring Python's comparison of the `_cmpkey`
tuples componentwise. -/
def vkeyCmp : VKey → VKey → Ordering :=
  pairLex cmpN (pairLex (listLex cmpN)
    (pairLex (botCmp (topCmp (pairLex cmpStr cmpN)))
      (pairLex (botCmp cmpN) (pairLex (topCmp cmpN)
        (botCmp (listLex (pairLex (botCmp cmpN) cmpStr)))))))

theorem linCmp_vkeyCmp : LinCmp vkeyCmp :=
  linCmp_pairLex linCmp_cmpN (linCmp_pairLex (linCmp_listLex linCmp_cmpN)
    (linCmp_pairLex (linCmp_botCmp (linCmp_topCmp (linCmp_pairLex linCmp_cmpStr linCmp_cmpN)))
      (linCmp_pairLex (linCmp_botCmp linCmp_cmpN) (linCmp_pairLex (linCmp_topCmp linCmp_cmpN)
        (linCmp_botCmp (linCmp_listLex (linCmp_pairLex (linCmp_botCmp linCmp_cmpN) linCmp_cmpStr)))))))

theorem cmpLawEq_vkeyCmp : CmpLawEq vkeyCmp :=
  cmpLawEq_pairLex cmpLawEq_cmpN (cmpLawEq_pairLex (cmpLawEq_listLex cmpLawEq_cmpN)
    (cmpLawEq_pairLex (cmpLawEq_botCmp (cmpLawEq_topCmp (cmpLawEq_pairLex cmpLawEq_cmpStr cmpLawEq_cmpN)))
      (cmpLawEq_pairLex (cmpLawEq_botCmp cmpLawEq_cmpN) (cmpLawEq_pairLex (cmpLawEq_topCmp cmpLawEq_cmpN)
        (cmpLawEq_botCmp (cmpLawEq_listLex (cmpLawEq_pairLex (cmpLawEq_botCmp cmpLawEq_cmpN) cmpLawEq_cmpStr)))))))

/-- `Version.__lt__`/`__eq__` compare the keys. -/
def versionCmp (a b : Version) : Ordering := vkeyCmp (cmpkey a) (cmpkey b)

end Packaging

/-! ### `DockerVersion` (docker_query.py lines 10-43) -/

/-- Python's `tag.split('-')`: split at every `-`; always at least one
(possibly empty) piece. -/
def splitOnDash : List Char → List (List Char)
  | [] => [[]]
  | c :: rest =>
    if c = '-' then [] :: splitOnDash rest
    else
      match splitOnDash rest with
      | s :: ss => (c :: s) :: ss
      | [] => [[c]]

/-- One suffix part matched against `re.match(r'([a-z]+)(\d+)', part)`:
the match succeeds exactly when the maximal leading run of lowercase
letters is non-empty and is immediately followed by a digit, and the
groups are that letter run and the digit run after it (the rest of the
part is ignored, since `re.match` only anchors at the start). -/
def parseSuffixPart (part : List Char) : Option (String × Nat) :=
  let ls := part.takeWhile Char.isLower
  if ls.isEmpty then none
  else
    let ds := (part.drop ls.length).takeWhile Char.isDigit
    if ds.isEmpty then none
    else some (String.mk ls, digitsToNat ds)

/-- The value object `DockerVersion`: the verbatim tag, the parsed
`packaging` version of the part before the first `-`, and the parsed
`(name, number)` suffix pairs. -/
structure DockerVersion where
  original : String
  version : Packaging.Version
  suffix : List (String × Nat)
deriving DecidableEq

/-- `DockerVersion(tag)`: `_parse_version` takes the part before the
first `-`, strips all leading `v` characters (`str.lstrip('v')`) and
hands it to `packaging.version.Version`; failure raises `ValueError`,
modelled as `none`.  `_parse_suffix` collects the suffix pairs of the
remaining parts. -/
def DockerVersion.parse (tag : String) : Option DockerVersion :=
  match splitOnDash tag.data with
  | [] => none
  | base :: sufParts =>
    match Packaging.version? (String.mk (base.dropWhile (fun c => c = 'v'))) with
    | none => none
    | some v => some ⟨tag, v, sufParts.filterMap parseSuffixPart⟩

/-- Python's comparison of the suffix tuples (tuples of `(str, int)`
pairs). -/
def sufCmp : List (String × Nat) → List (String × Nat) → Ordering :=
  listLex (pairLex cmpStr cmpN)

/-- The pair that `DockerVersion.__lt__`/`__eq__` compare: first the
version (by its `_cmpkey`), then — only on equal versions — the suffix
tuple. -/
def dockerKey (a : DockerVersion) : Packaging.VKey × List (String × Nat) :=
  (Packaging.cmpkey a.version, a.suffix)

/-- Three-way comparison realizing `DockerVersion.__lt__`/`__eq__` (and,
via `functools.total_ordering`, all other comparisons). -/
def dockerCmp (a b : DockerVersion) : Ordering :=
  pairLex Packaging.vkeyCmp sufCmp (dockerKey a) (dockerKey b)

theorem linCmp_sufCmp : LinCmp sufCmp :=
  linCmp_listLex (linCmp_pairLex linCmp_cmpStr linCmp_cmpN)

theorem cmpLawEq_sufCmp : CmpLawEq sufCmp :=
  cmpLawEq_listLex (cmpLawEq_pairLex cmpLawEq_cmpStr cmpLawEq_cmpN)

theorem linCmp_dockerCmp : LinCmp dockerCmp :=
  (linCmp_pairLex Packaging.linCmp_vkeyCmp linCmp_sufCmp).comap dockerKey

/-- `candidate > base` as `functools.total_ordering` derives it from
`__lt__` and `__eq__`: not less and not equal. -/
def pyGt (a b : DockerVersion) : Bool :=
  !(dockerCmp a b == .lt || dockerCmp a b == .eq)

/-! ### The stability classifiers (docker_query.py lines 46-50 and 97-102) -/

/-- `pat` occurs as a contiguous substring of `cs` (Python's `in` /
`re.search` of a literal). -/
def hasSub (pat : List Char) (cs : List Char) : Bool :=
  cs.tails.any fun s => pat.isPrefixOf s

/-- Python's `str.lower`, on the ASCII range. -/
def pyLower (s : String) : String := String.mk (s.data.map lowerChar)

/-- Consume up to `n` repetitions of `\.\d+` (greedily, as the regex
does). -/
def dotGroups : Nat → List Char → List Char
  | 0, cs => cs
  | n + 1, cs =>
    match cs with
    | '.' :: rest =>
      let ds := rest.takeWhile Char.isDigit
      if ds.isEmpty then '.' :: rest else dotGroups n (rest.drop ds.length)
    | _ => cs

/-- Consume an optional group `key` followed by `\d+` (e.g. `(-k3s\d+)?`);
if the digits are missing the whole group is skipped. -/
def optSeg (key : String) (cs : List Char) : List Char :=
  if key.data.isPrefixOf cs then
    let rest := cs.drop key.data.length
    let ds := rest.takeWhile Char.isDigit
    if ds.isEmpty then cs else rest.drop ds.length
  else cs

/-- Full match of `^v?\d+(\.\d+){0,2}(-k3s\d+)?(-rancher\d+)?$` (the shape
test of the second classifier).  The `$` anchor is modelled as
end-of-string; Python's `$` would also accept a single trailing newline,
which cannot occur in an image tag name. -/
def stableShape (cs : List Char) : Bool :=
  let cs1 := stripLeadV cs
  let ds := cs1.takeWhile Char.isDigit
  if ds.isEmpty then false
  else
    let r1 := dotGroups 2 (cs1.drop ds.length)
    let r2 := optSeg "-k3s" r1
    let r3 := optSeg "-rancher" r2
    r3.isEmpty

/-- The unstable marker words of `UNSTABLE_PATTERN`. -/
def unstableMarkers : List String := ["alpha", "beta", "rc", "dev", "test", "ci", "debug"]

/-- The second (later, binding) definition of `is_stable_kubernetes_tag`
(lines 97-102): lower-case the tag; reject when
`UNSTABLE_PATTERN = -(alpha|beta|rc|dev|test|ci|debug)\d*` matches
anywhere (the `\d*` can match the empty string, so this is exactly a
substring search for a `-`-prefixed marker word) or the tag equals
`latest`; otherwise accept iff the full shape matches. -/
def is_stable_kubernetes_tag (tag : String) : Bool :=
  let t := tag.data.map lowerChar
  if (unstableMarkers.any fun m => hasSub ('-' :: m.data) t) || t == "latest".data then false
  else stableShape t

/-- Full match of `_STABLE_SUFFIX = ^v\d+\.\d+\.\d+(-k3s\d+)?(-rancher\d+)?$`
(the first classifier's shape: mandatory `v`, exactly three components). -/
def stableShape1 (cs : List Char) : Bool :=
  match cs with
  | 'v' :: r =>
    let d1 := r.takeWhile Char.isDigit
    if d1.isEmpty then false
    else
      match r.drop d1.length with
      | '.' :: r2 =>
        let d2 := r2.takeWhile Char.isDigit
        if d2.isEmpty then false
        else
          match r2.drop d2.length with
          | '.' :: r3 =>
            let d3 := r3.takeWhile Char.isDigit
            if d3.isEmpty then false
            else
              let r4 := optSeg "-k3s" (r3.drop d3.length)
              let r5 := optSeg "-rancher" r4
              r5.isEmpty
          | _ => false
      | _ => false
  | _ => false

/-- The marker words of the first classifier (checked as bare substrings,
`latest` included). -/
def unstableMarkers1 : List String := ["rc", "alpha", "beta", "dev", "test", "ci", "debug", "latest"]

/-- The first (earlier, superseded) definition of `is_stable_kubernetes_tag`
(lines 46-50): lower-case; reject when any marker word occurs anywhere as
a bare substring; otherwise accept iff `_STABLE_SUFFIX` matches. -/
def is_stable_kubernetes_tag_v1 (tag : String) : Bool :=
  let t := tag.data.map lowerChar
  if unstableMarkers1.any fun m => hasSub m.data t then false
  else stableShape1 t

/-! ### The selector `find_newer_tags` (docker_query.py lines 70-83)

`get_tags` (the network pagination layer, out of the engine's scope) is
modelled as the list of tag names it would yield, passed in as `tags`.
The `ValueError` raised on an unparseable baseline is modelled as a
`none` result; per-candidate `ValueError`s are caught and the tag is
dropped. -/

/-- The selection loop: skip tags the classifier rejects, skip tags whose
parse fails, keep the original string of every candidate strictly greater
than the baseline. -/
def selectNewer (base : DockerVersion) : List String → List String
  | [] => []
  | t :: rest =>
    if is_stable_kubernetes_tag t then
      match DockerVersion.parse t with
      | none => selectNewer base rest
      | some c => if pyGt c base then t :: selectNewer base rest else selectNewer base rest
    else selectNewer base rest

/-- The relation underlying `sorted(newer_tags, key=DockerVersion)`:
`x` may precede `y` when `DockerVersion(y) < DockerVersion(x)` fails.
(On the lists this is applied to, every element parses; the `none` cases
only make the relation total on all strings.) -/
def tagLeB (x y : String) : Bool :=
  match DockerVersion.parse x, DockerVersion.parse y with
  | some a, some b => !(dockerCmp b a == .lt)
  | none, _ => true
  | some _, none => false

def tagLeR : String → String → Prop := fun x y => tagLeB x y = true

instance : DecidableRel tagLeR := fun x y => inferInstanceAs (Decidable (tagLeB x y = true))

/-- `find_newer_tags(image, base_tag)` with the tag stream of `image`
given as `tags`: parse the baseline (propagating its failure), filter and
compare, and return the retained original strings sorted ascending by
their parsed versions (Python's stable sort, modelled by insertion
sort). -/
def find_newer_tags (tags : List String) (base_tag : String) : Option (List String) :=
  match DockerVersion.parse base_tag with
  | none => none
  | some base => some (List.insertionSort tagLeR (selectNewer base tags))

/-! ### Supporting lemmas: characters and list scanning -/

theorem isDigit_toNat {c : Char} (h : c.isDigit = true) : 48 ≤ c.toNat ∧ c.toNat ≤ 57 := by
  unfold Char.isDigit at h
  simp only [Bool.and_eq_true, decide_eq_true_eq] at h
  exact ⟨h.1, h.2⟩

theorem lowerChar_fix {c : Char} (h : c.toNat < 65 ∨ 90 < c.toNat) : lowerChar c = c := by
  unfold lowerChar
  rw [if_neg (by omega)]

theorem lowerChar_digit {c : Char} (h : c.isDigit = true) : lowerChar c = c :=
  lowerChar_fix (Or.inl (by have := isDigit_toNat h; omega))

theorem takeWhile_all {p : α → Bool} : ∀ {l : List α}, (∀ c ∈ l, p c = true) → l.takeWhile p = l
  | [], _ => rfl
  | c :: t, h => by
    rw [List.takeWhile_cons, if_pos (h c (by simp)), takeWhile_all (fun x hx => h x (by simp [hx]))]

theorem takeWhile_append_stop {p : α → Bool} {x : α} (hx : p x = false) :
    ∀ {l : List α}, (∀ c ∈ l, p c = true) → ∀ (r : List α), (l ++ x :: r).takeWhile p = l
  | [], _, r => by simp [List.takeWhile_cons, hx]
  | c :: t, h, r => by
    rw [List.cons_append, List.takeWhile_cons, if_pos (h c (by simp)),
      takeWhile_append_stop hx (fun y hy => h y (by simp [hy])) r]

theorem dropWhile_all_false {p : α → Bool} : ∀ {l : List α}, (∀ c ∈ l, p c = false) → l.dropWhile p = l
  | [], _ => rfl
  | c :: t, h => by
    rw [List.dropWhile_cons, if_neg (by rw [h c (by simp)]; simp)]

theorem wsStrip_id {l : List Char} (h : ∀ c ∈ l, Packaging.isPySpace c = false) :
    Packaging.wsStrip l = l := by
  unfold Packaging.wsStrip
  rw [dropWhile_all_false h, dropWhile_all_false (fun c hc => h c (List.mem_reverse.mp hc)),
    List.reverse_reverse]

/-! ### Supporting lemmas: parsing a purely numeric dotted core -/

/-- `joinDotsTail [s₁, s₂, …] = "." ++ s₁ ++ "." ++ s₂ ++ …` -/
def joinDotsTail : List (List Char) → List Char
  | [] => []
  | s :: rest => '.' :: (s ++ joinDotsTail rest)

/-- `joinDots [s₀, s₁, …] = s₀ ++ "." ++ s₁ ++ …` — a dotted core given by
its component character runs. -/
def joinDots : List (List Char) → List Char
  | [] => []
  | s :: rest => s ++ joinDotsTail rest

theorem releaseLoop_absorb {ds : List Char} (hds : ∀ c ∈ ds, c.isDigit = true) :
    ∀ (rest : List Char) (cur : Nat) (acc : List Nat),
      Packaging.releaseLoop (ds ++ rest) cur acc =
        Packaging.releaseLoop rest (ds.foldl (fun a c => 10 * a + digitVal c) cur) acc := by
  induction ds with
  | nil => intro rest cur acc; rfl
  | cons c t ih =>
    intro rest cur acc
    rw [List.cons_append]
    rw [Packaging.releaseLoop.eq_def]
    simp only
    rw [if_pos (hds c (by simp))]
    rw [ih (fun x hx => hds x (by simp [hx])) rest]
    rfl

theorem digitsToNat_cons {c : Char} {t : List Char} :
    digitsToNat (c :: t) = t.foldl (fun a x => 10 * a + digitVal x) (digitVal c) := by
  simp [digitsToNat, List.foldl_cons]

theorem releaseLoop_join :
    ∀ (segs : List (List Char)),
      (∀ s ∈ segs, s ≠ [] ∧ ∀ c ∈ s, c.isDigit = true) →
      ∀ (cur : Nat) (acc : List Nat),
        Packaging.releaseLoop (joinDotsTail segs) cur acc =
          ((cur :: acc).reverse ++ segs.map digitsToNat, []) := by
  intro segs
  induction segs with
  | nil =>
    intro _ cur acc
    simp [joinDotsTail, Packaging.releaseLoop]
  | cons s rest ih =>
    intro h cur acc
    obtain ⟨hne, hdig⟩ := h s (by simp)
    obtain ⟨d, s', rfl⟩ := List.exists_cons_of_ne_nil hne
    simp only [joinDotsTail]
    rw [Packaging.releaseLoop.eq_def]
    simp only [List.cons_append]
    rw [if_neg (by decide)]
    simp only [if_true]
    rw [if_pos (hdig d (by simp))]
    rw [releaseLoop_absorb (fun x hx => hdig x (by simp [hx])) _ _ _]
    rw [ih (fun t ht => h t (by simp [ht])) _ _]
    rw [List.map_cons, List.reverse_cons, List.append_assoc, List.singleton_append,
      digitsToNat_cons]

theorem mem_joinDotsTail {c : Char} :
    ∀ {segs : List (List Char)}, c ∈ joinDotsTail segs → c = '.' ∨ ∃ s ∈ segs, c ∈ s := by
  intro segs
  induction segs with
  | nil => intro h; cases h
  | cons s rest ih =>
    intro h
    simp only [joinDotsTail, List.mem_cons, List.mem_append] at h
    rcases h with h | h | h
    · exact Or.inl h
    · exact Or.inr ⟨s, by simp, h⟩
    · rcases ih h with h1 | ⟨t, ht, hc⟩
      · exact Or.inl h1
      · exact Or.inr ⟨t, by simp [ht], hc⟩

theorem isPySpace_false {c : Char} (h : 45 ≤ c.toNat ∧ c.toNat ≤ 57) :
    Packaging.isPySpace c = false := by
  simp only [Packaging.isPySpace, Bool.or_eq_false_iff, decide_eq_false_iff_not]
  omega

theorem stripLeadV_cons {c : Char} {r : List Char} (h : ¬ c = 'v') :
    stripLeadV (c :: r) = c :: r := by
  simp only [stripLeadV]
  rw [if_neg h]

theorem parseEpoch_no_bang {l tail : List Char} (hl : ∀ c ∈ l, c.isDigit = true)
    (ht : tail = [] ∨ ∃ x, tail = '.' :: x) :
    Packaging.parseEpoch (l ++ tail) = (0, l ++ tail) := by
  have hds : (l ++ tail).takeWhile Char.isDigit = l := by
    rcases ht with rfl | ⟨x, rfl⟩
    · rw [List.append_nil]
      exact takeWhile_all hl
    · exact takeWhile_append_stop (by decide) hl x
  unfold Packaging.parseEpoch
  simp only [hds]
  cases l with
  | nil => simp
  | cons c t =>
    rw [if_neg (by simp)]
    rw [List.drop_left]
    rcases ht with rfl | ⟨x, rfl⟩
    · rfl
    · exact if_neg (by decide)

/-- Any purely numeric dotted core parses, whatever its number of
components: the release is the list of component values and every other
field is empty. -/
theorem version?_numeric {first : List Char} {rest : List (List Char)}
    (h1 : first ≠ []) (h2 : ∀ c ∈ first, c.isDigit = true)
    (h3 : ∀ s ∈ rest, s ≠ [] ∧ ∀ c ∈ s, c.isDigit = true) :
    Packaging.version? (String.mk (joinDots (first :: rest))) =
      some ⟨0, (first :: rest).map digitsToNat, none, none, none, none⟩ := by
  have hbound : ∀ c ∈ joinDots (first :: rest), 46 ≤ c.toNat ∧ c.toNat ≤ 57 := by
    intro c hc
    simp only [joinDots, List.mem_append] at hc
    have : c.isDigit = true ∨ c = '.' := by
      rcases hc with hc | hc
      · exact Or.inl (h2 c hc)
      · rcases mem_joinDotsTail hc with h | ⟨s, hs, hcs⟩
        · exact Or.inr h
        · exact Or.inl ((h3 s hs).2 c hcs)
    rcases this with h | h
    · have := isDigit_toNat h
      omega
    · subst h
      exact ⟨by decide, by decide⟩
  have htail : joinDotsTail rest = [] ∨ ∃ x, joinDotsTail rest = '.' :: x := by
    cases rest with
    | nil => exact Or.inl rfl
    | cons s r => exact Or.inr ⟨s ++ joinDotsTail r, rfl⟩
  obtain ⟨fc, ft, rfl⟩ := List.exists_cons_of_ne_nil h1
  have hfc : fc.isDigit = true := h2 fc (by simp)
  have hnev : ¬ fc = 'v' := by
    intro he
    rw [he] at hfc
    exact absurd hfc (by decide)
  unfold Packaging.version?
  rw [show (String.mk (joinDots ((fc :: ft) :: rest))).data = joinDots ((fc :: ft) :: rest) from rfl]
  rw [List.map_congr_left (fun c hc => lowerChar_fix (Or.inl (by have := hbound c hc; omega)))]
  rw [List.map_id']
  rw [wsStrip_id (fun c hc => isPySpace_false (by have := hbound c hc; omega))]
  simp only [Packaging.parseCore, joinDots, List.cons_append]
  rw [stripLeadV_cons hnev]
  rw [← List.cons_append, parseEpoch_no_bang h2 htail]
  simp only [Packaging.parseRelease, List.cons_append]
  rw [if_pos hfc]
  rw [releaseLoop_absorb (fun x hx => h2 x (by simp [hx])) _ _ _]
  rw [releaseLoop_join rest h3 _ _]
  rw [← digitsToNat_cons]
  rfl

/-! ### Supporting lemmas: the selector -/

theorem pyGt_iff {a b : DockerVersion} : pyGt a b = true ↔ dockerCmp b a = .lt := by
  unfold pyGt
  rw [linCmp_dockerCmp.symm a b]
  cases h : dockerCmp a b <;> decide

theorem mem_selectNewer {base : DockerVersion} :
    ∀ {src : List String} {t : String}, t ∈ selectNewer base src →
      is_stable_kubernetes_tag t = true ∧
        ∃ c, DockerVersion.parse t = some c ∧ dockerCmp base c = .lt := by
  intro src
  induction src with
  | nil =>
    intro t h
    cases h
  | cons s rest ih =>
    intro t h
    simp only [selectNewer] at h
    split at h
    · split at h
      · exact ih h
      · rename_i c hp
        split at h
        · rename_i hg
          rcases List.mem_cons.mp h with rfl | hmem
          · exact ⟨by assumption, c, hp, pyGt_iff.mp hg⟩
          · exact ih hmem
        · exact ih h
    · exact ih h

theorem bnot_beq_lt {x : Ordering} : (!(x == Ordering.lt)) = true ↔ x ≠ .lt := by
  cases x <;> decide

theorem tagLeB_some {x y : String} {a b : DockerVersion}
    (hx : DockerVersion.parse x = some a) (hy : DockerVersion.parse y = some b) :
    tagLeB x y = !(dockerCmp b a == Ordering.lt) := by
  unfold tagLeB
  rw [hx, hy]

theorem tagLeB_none {x y : String} (hx : DockerVersion.parse x = none) :
    tagLeB x y = true := by
  unfold tagLeB
  rw [hx]

theorem tagLeB_some_none {x y : String} {a : DockerVersion}
    (hx : DockerVersion.parse x = some a) (hy : DockerVersion.parse y = none) :
    tagLeB x y = false := by
  unfold tagLeB
  rw [hx, hy]

theorem tagLe_total (x y : String) : tagLeB x y = true ∨ tagLeB y x = true := by
  cases hx : DockerVersion.parse x with
  | none => exact Or.inl (tagLeB_none hx)
  | some a =>
    cases hy : DockerVersion.parse y with
    | none => exact Or.inr (tagLeB_none hy)
    | some b =>
      rw [tagLeB_some hx hy, tagLeB_some hy hx]
      cases h : dockerCmp b a with
      | lt =>
        refine Or.inr ?_
        rw [linCmp_dockerCmp.gt_iff.mpr h]
        decide
      | eq =>
        refine Or.inl ?_
        rw [bnot_beq_lt]
        decide
      | gt =>
        refine Or.inl ?_
        rw [bnot_beq_lt]
        decide

theorem tagLe_trans {x y z : String} (h1 : tagLeB x y = true) (h2 : tagLeB y z = true) :
    tagLeB x z = true := by
  cases hx : DockerVersion.parse x with
  | none => exact tagLeB_none hx
  | some a =>
    cases hy : DockerVersion.parse y with
    | none =>
      rw [tagLeB_some_none hx hy] at h1
      cases h1
    | some b =>
      cases hz : DockerVersion.parse z with
      | none =>
        rw [tagLeB_some_none hy hz] at h2
        cases h2
      | some c =>
        rw [tagLeB_some hx hy, bnot_beq_lt] at h1
        rw [tagLeB_some hy hz, bnot_beq_lt] at h2
        rw [tagLeB_some hx hz, bnot_beq_lt]
        intro hca
        have hac : dockerCmp a c = .gt := linCmp_dockerCmp.gt_iff.mpr hca
        have hab : dockerCmp a b ≠ .gt := fun hg => h1 (linCmp_dockerCmp.gt_iff.mp hg)
        have hbc : dockerCmp b c ≠ .gt := fun hg => h2 (linCmp_dockerCmp.gt_iff.mp hg)
        exact linCmp_dockerCmp.le_trans hab hbc hac

instance : IsTotal String tagLeR := ⟨tagLe_total⟩

instance : IsTrans String tagLeR := ⟨fun _ _ _ => tagLe_trans⟩

/-! ### Supporting lemmas: trimmed-release comparison is padded
componentwise comparison -/

/-- `padLex [] l`: comparison of the empty release against `l`,
componentwise with missing components as `0`. -/
def padLexNil : List Nat → Ordering
  | [] => .eq
  | b :: bs => (cmpN 0 b).then (padLexNil bs)

/-- Componentwise comparison of two release tuples where a missing
trailing component counts as `0` (the spec's "missing trailing components
treated as lowest"). -/
def padLex : List Nat → List Nat → Ordering
  | [], l => padLexNil l
  | a :: as, [] => (cmpN a 0).then (padLex as [])
  | a :: as, b :: bs => (cmpN a b).then (padLex as bs)

theorem ordThenEqR (o : Ordering) : o.then .eq = o := by
  cases o <;> rfl

theorem cmpN_zero_left_ne_gt (y : Nat) : cmpN 0 y ≠ .gt := by
  unfold cmpN
  split_ifs with h1 h2
  · simp
  · simp
  · omega

theorem cmpN_zero_right_ne_lt (y : Nat) : cmpN y 0 ≠ .lt := by
  unfold cmpN
  split_ifs with h1 h2
  · omega
  · simp
  · simp

theorem relTrim_cons (x : Nat) (l : List Nat) :
    Packaging.relTrim (x :: l) =
      if Packaging.relTrim l = [] then (if x = 0 then [] else [x])
      else x :: Packaging.relTrim l := by
  unfold Packaging.relTrim
  rw [List.reverse_cons, List.dropWhile_append]
  have hiff : (List.dropWhile (fun n => n == 0) l.reverse).isEmpty = true ↔
      (List.dropWhile (fun n => n == 0) l.reverse).reverse = [] := by
    rw [List.isEmpty_iff, List.reverse_eq_nil_iff]
  by_cases h : (List.dropWhile (fun n => n == 0) l.reverse).isEmpty = true
  · rw [if_pos h, if_pos (hiff.mp h)]
    by_cases hx : x = 0
    · subst hx
      simp [List.dropWhile_cons]
    · simp [List.dropWhile_cons, hx]
  · rw [if_neg h, if_neg (fun he => h (hiff.mpr he))]
    simp [List.reverse_append]

theorem listLex_relTrim_nil_left :
    ∀ l : List Nat, listLex cmpN [] (Packaging.relTrim l) = padLex [] l := by
  intro l
  induction l with
  | nil => rfl
  | cons y l' ih =>
    rw [relTrim_cons]
    simp only [padLex, padLexNil]
    rw [show padLexNil l' = padLex [] l' from rfl]
    split_ifs with h1 h2
    · rw [← ih, h1]
      subst h2
      decide
    · rw [← ih, h1]
      have hy : cmpN 0 y = .lt := cmpN_lt_iff.mpr (Nat.pos_of_ne_zero h2)
      rw [hy]
      rfl
    · have hlt : padLex [] l' = .lt := by
        rw [← ih]
        cases hr : Packaging.relTrim l' with
        | nil => exact absurd hr h1
        | cons a r => rfl
      rw [hlt]
      cases hr : Packaging.relTrim l' with
      | nil => exact absurd hr h1
      | cons a r =>
        cases hcy : cmpN 0 y with
        | lt => rfl
        | eq => rfl
        | gt => exact absurd hcy (cmpN_zero_left_ne_gt y)

theorem listLex_relTrim_nil_right :
    ∀ l : List Nat, listLex cmpN (Packaging.relTrim l) [] = padLex l [] := by
  intro l
  induction l with
  | nil => rfl
  | cons y l' ih =>
    rw [relTrim_cons]
    simp only [padLex, padLexNil]
    split_ifs with h1 h2
    · rw [← ih, h1]
      subst h2
      decide
    · rw [← ih, h1]
      have hy : cmpN y 0 = .gt := by
        unfold cmpN
        rw [if_neg (by omega), if_neg h2]
      rw [hy]
      rfl
    · have hgt : padLex l' [] = .gt := by
        rw [← ih]
        cases hr : Packaging.relTrim l' with
        | nil => exact absurd hr h1
        | cons a r => rfl
      rw [hgt]
      cases hr : Packaging.relTrim l' with
      | nil => exact absurd hr h1
      | cons a r =>
        cases hcy : cmpN y 0 with
        | lt => exact absurd hcy (cmpN_zero_right_ne_lt y)
        | eq => rfl
        | gt => rfl

theorem listLex_relTrim_cons (x y : Nat) (xs ys : List Nat) :
    listLex cmpN (Packaging.relTrim (x :: xs)) (Packaging.relTrim (y :: ys)) =
      (cmpN x y).then (listLex cmpN (Packaging.relTrim xs) (Packaging.relTrim ys)) := by
  rw [relTrim_cons, relTrim_cons]
  by_cases h1 : Packaging.relTrim xs = [] <;> by_cases h3 : Packaging.relTrim ys = []
  · rw [if_pos h1, if_pos h3, h1, h3]
    rw [show listLex cmpN ([] : List Nat) [] = .eq from rfl, ordThenEqR]
    by_cases hx : x = 0 <;> by_cases hy : y = 0
    · subst hx
      subst hy
      decide
    · subst hx
      rw [if_pos rfl, if_neg hy, cmpN_lt_iff.mpr (Nat.pos_of_ne_zero hy)]
      rfl
    · subst hy
      rw [if_neg hx, if_pos rfl]
      have : cmpN x 0 = .gt := by
        unfold cmpN
        rw [if_neg (by omega), if_neg hx]
      rw [this]
      rfl
    · rw [if_neg hx, if_neg hy]
      simp only [listLex]
      rw [ordThenEqR]
  · rw [if_pos h1, if_neg h3, h1]
    have hlt : listLex cmpN [] (Packaging.relTrim ys) = .lt := by
      cases hr : Packaging.relTrim ys with
      | nil => exact absurd hr h3
      | cons a r => rfl
    rw [hlt]
    by_cases hx : x = 0
    · subst hx
      rw [if_pos rfl]
      cases hcy : cmpN 0 y with
      | lt => rfl
      | eq => rfl
      | gt => exact absurd hcy (cmpN_zero_left_ne_gt y)
    · rw [if_neg hx]
      simp only [listLex]
      rw [hlt]
  · rw [if_neg h1, if_pos h3, h3]
    have hgt : listLex cmpN (Packaging.relTrim xs) [] = .gt := by
      cases hr : Packaging.relTrim xs with
      | nil => exact absurd hr h1
      | cons a r => rfl
    rw [hgt]
    by_cases hy : y = 0
    · subst hy
      rw [if_pos rfl]
      cases hcy : cmpN x 0 with
      | lt => exact absurd hcy (cmpN_zero_right_ne_lt x)
      | eq => rfl
      | gt => rfl
    · rw [if_neg hy]
      simp only [listLex]
      rw [hgt]
  · rw [if_neg h1, if_neg h3]
    simp only [listLex]

/-- Comparing two trimmed releases lexicographically is exactly the
componentwise comparison that pads the shorter release with zeros. -/
theorem relTrim_lex_eq_padLex :
    ∀ xs ys : List Nat,
      listLex cmpN (Packaging.relTrim xs) (Packaging.relTrim ys) = padLex xs ys := by
  intro xs
  induction xs with
  | nil => exact listLex_relTrim_nil_left
  | cons x xs' ih =>
    intro ys
    cases ys with
    | nil => exact listLex_relTrim_nil_right (x :: xs')
    | cons y ys' =>
      rw [listLex_relTrim_cons, ih ys']
      rfl

/-! ### Remaining supporting lemmas -/

theorem listLex_self_append {c : α → α → Ordering} (hr : ∀ a, c a a = .eq) :
    ∀ (l t : List α), t ≠ [] → listLex c l (l ++ t) = .lt
  | [], t, h => by
    cases t with
    | nil => exact absurd rfl h
    | cons a r => rfl
  | a :: l', t, h => by
    simp only [List.cons_append, listLex, hr a, ordThenEq]
    exact listLex_self_append hr l' t h

theorem splitOnDash_ne_nil : ∀ cs : List Char, splitOnDash cs ≠ []
  | [] => by simp [splitOnDash]
  | c :: rest => by
    simp only [splitOnDash]
    split_ifs
    · simp
    · cases h : splitOnDash rest with
      | nil => exact absurd h (splitOnDash_ne_nil rest)
      | cons s ss => simp

theorem parse_isSome_iff (tag : String) :
    (DockerVersion.parse tag).isSome = true ↔
      (Packaging.version? (String.mk
        (((splitOnDash tag.data).headD []).dropWhile (fun c => c = 'v')))).isSome = true := by
  cases h : splitOnDash tag.data with
  | nil => exact absurd h (splitOnDash_ne_nil tag.data)
  | cons base sufParts =>
    unfold DockerVersion.parse
    rw [h]
    simp only [List.headD_cons]
    cases hv : Packaging.version? (String.mk (base.dropWhile (fun c => c = 'v'))) <;>
      simp [hv]

/-! ### The claims -/

/-- Claim C1: for the scenario source
`["v1.27.2-k3s1","v1.27.3-k3s1","v1.27.3-k3s1-rc1","v1.27.1-k3s1","latest","v1.28.0-k3s1-rancher2"]`
and baseline `"v1.27.2-k3s1"`, `find_newer_tags` returns exactly
`["v1.27.3-k3s1", "v1.28.0-k3s1-rancher2"]` in that (ascending) order;
the `-rc1` tag and `"latest"` are rejected by the stability classifier,
and the older `"v1.27.1-k3s1"` compares below the baseline, so the strict
comparison excludes it. -/
theorem claim_C1_scenario :
    find_newer_tags
        ["v1.27.2-k3s1", "v1.27.3-k3s1", "v1.27.3-k3s1-rc1", "v1.27.1-k3s1", "latest",
          "v1.28.0-k3s1-rancher2"] "v1.27.2-k3s1" =
      some ["v1.27.3-k3s1", "v1.28.0-k3s1-rancher2"] ∧
    is_stable_kubernetes_tag "v1.27.3-k3s1-rc1" = false ∧
    is_stable_kubernetes_tag "latest" = false ∧
    ((DockerVersion.parse "v1.27.2-k3s1").bind fun b =>
      (DockerVersion.parse "v1.27.1-k3s1").map fun c => dockerCmp b c) = some .gt := by
  decide

/-- Claim C2, evaluated on the code (the claim itself is wrong about the
code): `re.match(r'([a-z]+)(\d+)', "k3s1")` matches only the prefix
`"k3"`, so `parse("v1.2.3-k3s1-rancher2").suffix` is
`[("k", 3), ("rancher", 2)]`, not `[("k3s", 1), ("rancher", 2)]` as the
spec states; as a consequence all `-k3sN` suffixes collapse to `("k", 3)`
and `v1.27.2-k3s1` compares equal to `v1.27.2-k3s2`, defeating the
purpose (detecting newer k3s revisions), which marks the parse as the
slip. -/
theorem claim_C2_suffix_eval :
    (DockerVersion.parse "v1.2.3-k3s1-rancher2").map DockerVersion.suffix =
        some [("k", 3), ("rancher", 2)] ∧
    (DockerVersion.parse "v1.2.3-k3s1-rancher2").map DockerVersion.suffix ≠
        some [("k3s", 1), ("rancher", 2)] ∧
    ((DockerVersion.parse "v1.27.2-k3s1").bind fun a =>
      (DockerVersion.parse "v1.27.2-k3s2").map fun b => dockerCmp a b) = some .eq := by
  decide

/-- Claim C3, counterexample: the claim (and the module's own pytest
table) expect `is_stable("v1.2.3-architecture")` and
`is_stable("v1.2.3-rctest")` to be `true`, but the code returns `false`
for both. -/
theorem claim_C3_counterexample :
    ¬ (is_stable_kubernetes_tag "v1.2.3-architecture" = true ∧
        is_stable_kubernetes_tag "v1.2.3-rctest" = true) := by
  decide

/-- Claim C3 as amended: `is_stable` returns `false` on all four inputs —
`"v1.2.3-architecture"` passes the unstable-marker scan (no `-`-prefixed
marker substring) but fails the stable-shape match, `"v1.2.3-rctest"` is
rejected by the marker scan (it contains the substring `-rc` and the
regex's `\d*` may match the empty string), and `"v1.2.3foo"` and
`"garbage"` fail the shape match. -/
theorem claim_C3_amended :
    is_stable_kubernetes_tag "v1.2.3-architecture" = false ∧
    is_stable_kubernetes_tag "v1.2.3-rctest" = false ∧
    is_stable_kubernetes_tag "v1.2.3foo" = false ∧
    is_stable_kubernetes_tag "garbage" = false := by
  decide

/-- Claim C4, counterexample: the claim restricts parse success to cores
of 1 to 3 dotted components, but the code accepts `"1.2.3.4"`
(`packaging.version.Version` takes any number of components). -/
theorem claim_C4_counterexample : (DockerVersion.parse "1.2.3.4").isSome = true := by
  decide

/-- Claim C4 as amended: `parse` succeeds exactly when the portion of the
tag before the first hyphen, after stripping all leading `v` characters,
is a valid PEP 440 version string; in particular every dotted run of one
or more non-negative integer components succeeds (so a well-formed
numeric core never fails, with no upper bound of 3 components), strings
with an empty or non-numeric core fail, and PEP 440 extras such as a
pre-release marker in the core are also accepted. -/
theorem claim_C4_amended :
    (∀ tag : String, (DockerVersion.parse tag).isSome = true ↔
        (Packaging.version? (String.mk
          (((splitOnDash tag.data).headD []).dropWhile (fun c => c = 'v')))).isSome = true) ∧
    (∀ (first : List Char) (rest : List (List Char)), first ≠ [] →
        (∀ c ∈ first, c.isDigit = true) →
        (∀ s ∈ rest, s ≠ [] ∧ ∀ c ∈ s, c.isDigit = true) →
        (Packaging.version? (String.mk (joinDots (first :: rest)))).isSome = true) ∧
    DockerVersion.parse "" = none ∧
    DockerVersion.parse "abc" = none ∧
    (DockerVersion.parse "1.2.3.4").isSome = true ∧
    (DockerVersion.parse "v1.2.3a1-k3s1").isSome = true := by
  refine ⟨parse_isSome_iff, ?_, by decide, by decide, by decide, by decide⟩
  intro first rest h1 h2 h3
  rw [version?_numeric h1 h2 h3]
  rfl

/-- Witness for C4: the amended characterization applied at concrete
inputs. -/
theorem claim_C4_witness :
    (DockerVersion.parse "v1.2-k3s1").isSome = true ∧
    (Packaging.version? (String.mk (joinDots [['1'], ['2', '3']]))).isSome = true :=
  ⟨(claim_C4_amended.1 "v1.2-k3s1").mpr (by decide),
    claim_C4_amended.2.1 ['1'] [['2', '3']] (by decide) (by decide) (by decide)⟩

/-- Claim C5: an unparseable baseline makes `find_newer_tags` fail with
the propagated error (`none`) whatever the source is — the result equals
the result on the empty source, i.e. the source is never consumed — while
an unparseable candidate is silently dropped (the run continues exactly
as without it), and with a parseable baseline no error ever escapes. -/
theorem claim_C5_errors :
    (∀ b : String, DockerVersion.parse b = none →
        ∀ src : List String,
          find_newer_tags src b = none ∧ find_newer_tags src b = find_newer_tags [] b) ∧
    (∀ (b t : String) (rest : List String), DockerVersion.parse t = none →
        find_newer_tags (t :: rest) b = find_newer_tags rest b) ∧
    (∀ (b : String) (src : List String), (DockerVersion.parse b).isSome = true →
        (find_newer_tags src b).isSome = true) := by
  refine ⟨?_, ?_, ?_⟩
  · intro b hb src
    unfold find_newer_tags
    rw [hb]
    exact ⟨rfl, rfl⟩
  · intro b t rest ht
    unfold find_newer_tags
    cases hb : DockerVersion.parse b with
    | none => rfl
    | some base =>
      have hsel : selectNewer base (t :: rest) = selectNewer base rest := by
        simp only [selectNewer]
        by_cases hs : is_stable_kubernetes_tag t = true
        · rw [if_pos hs, ht]
        · rw [if_neg hs]
      show some (List.insertionSort tagLeR (selectNewer base (t :: rest))) =
        some (List.insertionSort tagLeR (selectNewer base rest))
      rw [hsel]
  · intro b src hb
    cases hb' : DockerVersion.parse b with
    | none =>
      rw [hb'] at hb
      cases hb
    | some base =>
      unfold find_newer_tags
      rw [hb']
      rfl

/-- Witness for C5: the three error-handling facts at concrete inputs. -/
theorem claim_C5_witness :
    find_newer_tags ["v1.2.4"] "garbage" = none ∧
    find_newer_tags ["not!a!version", "v1.2.4"] "v1.2.3" =
      find_newer_tags ["v1.2.4"] "v1.2.3" ∧
    (find_newer_tags [] "v1.2.3").isSome = true :=
  ⟨(claim_C5_errors.1 "garbage" (by decide) ["v1.2.4"]).1,
    claim_C5_errors.2.1 "v1.2.3" "not!a!version" ["v1.2.4"] (by decide),
    claim_C5_errors.2.2 "v1.2.3" [] (by decide)⟩

/-- Claim C6: with any source and any parseable baseline, every string in
the output of `find_newer_tags` passes `is_stable_kubernetes_tag`, parses
to a `DockerVersion` strictly greater than the parsed baseline, and the
output is sorted ascending under the key-based relation `tagLeR` of the
4.2 comparator; in particular the baseline tag itself never appears. -/
theorem claim_C6_selector_spec :
    ∀ (src : List String) (b : String) (base : DockerVersion) (out : List String),
      DockerVersion.parse b = some base → find_newer_tags src b = some out →
      (∀ t ∈ out, is_stable_kubernetes_tag t = true ∧
          ∃ c, DockerVersion.parse t = some c ∧ dockerCmp base c = .lt) ∧
      List.Sorted tagLeR out ∧ b ∉ out := by
  intro src b base out hb hout
  unfold find_newer_tags at hout
  rw [hb] at hout
  have hout2 : List.insertionSort tagLeR (selectNewer base src) = out :=
    Option.some.inj hout
  subst hout2
  refine ⟨?_, List.sorted_insertionSort tagLeR _, ?_⟩
  · intro t ht
    exact mem_selectNewer (((List.perm_insertionSort tagLeR _).mem_iff).mp ht)
  · intro hb_in
    obtain ⟨_, c, hc, hlt⟩ :=
      mem_selectNewer (((List.perm_insertionSort tagLeR _).mem_iff).mp hb_in)
    rw [hb] at hc
    have hcb : base = c := Option.some.inj hc
    rw [← hcb, linCmp_dockerCmp.refl base] at hlt
    cases hlt

/-- Witness for C6: the scenario of C1, with the parsed baseline made
explicit; the binder-free consequences are the sortedness of the output
and the absence of the baseline from it. -/
theorem claim_C6_witness :
    List.Sorted tagLeR ["v1.27.3-k3s1", "v1.28.0-k3s1-rancher2"] ∧
      "v1.27.2-k3s1" ∉ ["v1.27.3-k3s1", "v1.28.0-k3s1-rancher2"] :=
  (claim_C6_selector_spec
    ["v1.27.2-k3s1", "v1.27.3-k3s1", "v1.27.3-k3s1-rc1", "v1.27.1-k3s1", "latest",
      "v1.28.0-k3s1-rancher2"]
    "v1.27.2-k3s1"
    ⟨"v1.27.2-k3s1", ⟨0, [1, 27, 2], none, none, none, none⟩, [("k", 3)]⟩
    ["v1.27.3-k3s1", "v1.28.0-k3s1-rancher2"]
    (by decide) (by decide)).2

/-- Claim C7: `DockerVersion.__lt__` compares the version cores first and
compares the suffix tuples only on equal cores; core comparison is the
componentwise numeric comparison in which missing trailing components
count as lowest (zero) — `relTrim_lex_eq_padLex` — so the cores of
`parse("1.2")` and `parse("1.2.0")` are equal; suffix tuples compare
lexicographically with a strict prefix smaller, e.g.
`parse("v1.2.3") < parse("v1.2.3-k3s1")`. -/
theorem claim_C7_comparator :
    (∀ a b : DockerVersion, dockerCmp a b = .lt ↔
        (Packaging.vkeyCmp (Packaging.cmpkey a.version) (Packaging.cmpkey b.version) = .lt ∨
          (Packaging.vkeyCmp (Packaging.cmpkey a.version) (Packaging.cmpkey b.version) = .eq ∧
            sufCmp a.suffix b.suffix = .lt))) ∧
    (∀ xs ys : List Nat,
        listLex cmpN (Packaging.relTrim xs) (Packaging.relTrim ys) = padLex xs ys) ∧
    ((Packaging.version? "1.2").bind fun a => (Packaging.version? "1.2.0").map fun b =>
        Packaging.versionCmp a b) = some .eq ∧
    (∀ (l t : List (String × Nat)), t ≠ [] → sufCmp l (l ++ t) = .lt) ∧
    ((DockerVersion.parse "v1.2.3").bind fun a =>
      (DockerVersion.parse "v1.2.3-k3s1").map fun b => dockerCmp a b) = some .lt := by
  refine ⟨?_, relTrim_lex_eq_padLex, by decide, ?_, by decide⟩
  · intro a b
    unfold dockerCmp pairLex dockerKey
    cases h : Packaging.vkeyCmp (Packaging.cmpkey a.version) (Packaging.cmpkey b.version) <;>
      simp [ordThenLt, ordThenGt, ordThenEq]
  · exact fun l t ht =>
      listLex_self_append (linCmp_pairLex linCmp_cmpStr linCmp_cmpN).refl l t ht

/-- Witness for C7: the strict-prefix rule applied at a concrete suffix
pair. -/
theorem claim_C7_witness : sufCmp [("k", 3)] [("k", 3), ("rancher", 2)] = .lt :=
  claim_C7_comparator.2.2.2.1 [("k", 3)] [("rancher", 2)] (by decide)

/-- Claim C8: the comparison of `DockerVersion`s is a total order —
transitive, reflexive-equal, and antisymmetric in the sense that
swapping the arguments swaps the ordering, so exactly one of less,
equal, greater holds for any pair; two values compare equal iff their
version keys and suffix tuples are equal, with `original` excluded:
`parse("v1.2")` and `parse("1.2.0")` compare equal while their original
strings differ. -/
theorem claim_C8_order :
    (∀ a b c : DockerVersion, dockerCmp a b = .lt → dockerCmp b c = .lt → dockerCmp a c = .lt) ∧
    (∀ a : DockerVersion, dockerCmp a a = .eq) ∧
    (∀ a b : DockerVersion, dockerCmp b a = (dockerCmp a b).swap) ∧
    (∀ a b : DockerVersion, dockerCmp a b = .eq ↔
        (Packaging.cmpkey a.version = Packaging.cmpkey b.version ∧ a.suffix = b.suffix)) ∧
    ((DockerVersion.parse "v1.2").bind fun a => (DockerVersion.parse "1.2.0").map fun b =>
        dockerCmp a b) = some .eq ∧
    (DockerVersion.parse "v1.2").map DockerVersion.original ≠
      (DockerVersion.parse "1.2.0").map DockerVersion.original := by
  refine ⟨fun a b c h1 h2 => linCmp_dockerCmp.lt_trans h1 h2, linCmp_dockerCmp.refl,
    fun a b => linCmp_dockerCmp.symm a b, ?_, by decide, by decide⟩
  intro a b
  unfold dockerCmp
  rw [cmpLawEq_pairLex Packaging.cmpLawEq_vkeyCmp cmpLawEq_sufCmp (dockerKey a) (dockerKey b)]
  unfold dockerKey
  rw [Prod.mk.injEq]

/-- Witness for C8: transitivity applied at three concrete values. -/
theorem claim_C8_witness :
    dockerCmp ⟨"a", ⟨0, [1], none, none, none, none⟩, []⟩
        ⟨"c", ⟨0, [3], none, none, none, none⟩, []⟩ = .lt :=
  claim_C8_order.1
    ⟨"a", ⟨0, [1], none, none, none, none⟩, []⟩
    ⟨"b", ⟨0, [2], none, none, none, none⟩, []⟩
    ⟨"c", ⟨0, [3], none, none, none, none⟩, []⟩
    (by decide) (by decide)

/-- Claim C9: the classifier is a total boolean function (it is a Lean
function into `Bool`, so it returns a boolean on every string and never
raises; `"garbage"` gives `false`), and it is case-insensitive:
lower-casing the input first never changes the verdict, because the
classifier lower-cases the tag itself and ASCII lower-casing is
idempotent. -/
theorem claim_C9_stability_classifier :
    (∀ t : String, is_stable_kubernetes_tag t = is_stable_kubernetes_tag (pyLower t)) ∧
    is_stable_kubernetes_tag "garbage" = false := by
  refine ⟨?_, by decide⟩
  intro t
  unfold is_stable_kubernetes_tag pyLower
  rw [show (String.mk (t.data.map lowerChar)).data = t.data.map lowerChar from rfl]
  rw [List.map_map]
  rw [List.map_congr_left
    (fun c _ => show (lowerChar ∘ lowerChar) c = lowerChar c from lowerChar_idem c)]

/-- Claim C10: the two variants of `is_stable_kubernetes_tag` are not
extensionally equal: on `"1.2.3"` the first variant (mandatory `v`,
exactly three components) returns `false` while the second (optional
`v`, 1-3 components) returns `true`. -/
theorem claim_C10_variants_differ :
    is_stable_kubernetes_tag_v1 "1.2.3" = false ∧
    is_stable_kubernetes_tag "1.2.3" = true ∧
    is_stable_kubernetes_tag_v1 "1.2.3" ≠ is_stable_kubernetes_tag "1.2.3" := by
  decide

/-- Witness for C9: case-insensitivity applied at a concrete tag. -/
theorem claim_C9_witness :
    is_stable_kubernetes_tag "LATEST" = is_stable_kubernetes_tag (pyLower "LATEST") :=
  claim_C9_stability_classifier.1 "LATEST"
